import Mathlib

/-!
Shallow embedding of the frame-conversion core of `src/webcam.c`
(the second prototype iteration: `clamp`, `convertToRGB`, `equalize`,
and the buffer-request step of `webcam_resize`).

Buffers are lists of byte values (`List ℕ`, entries intended `< 256`).
C `double` arithmetic is modelled by exact rational arithmetic (`ℚ`);
the C cast `int r = x` is truncation toward zero, modelled by
`truncToInt`.  C `size_t` subtraction only occurs in contexts where the
minuend dominates, and is modelled by truncated `ℕ` subtraction.
-/

namespace Webcam

/-- Truncation toward zero of a rational, the effect of the C cast
`int r = x` on a `double` value `x`. -/
def truncToInt (x : ℚ) : ℤ :=
  if 0 ≤ x then ⌊x⌋ else -⌊-x⌋

/-- `clamp` from webcam.c: cast the double to `int` (truncation toward
zero), then clamp the result to the byte range: negatives become 0,
values above 255 become 255. -/
def clamp (x : ℚ) : ℕ :=
  let r : ℤ := truncToInt x
  if r < 0 then 0 else if 255 < r then 255 else r.toNat

/-- The U byte fetched for the luma sample at offset `i` in
`convertToRGB`: offset `i+1` when `i % 4 == 0`, else `i-1`; the code
reads the buffer when `i + uOffset > 0 && i + uOffset < length` and
otherwise substitutes the neutral chroma value `0x80`.  In C, `i` is a
`size_t`, so at `i = 0` the sum `i + (-1)` wraps around to `2^64 - 1`,
which passes the `> 0` test but fails the `< length` test; truncated
`ℕ` subtraction instead gives `0`, which fails the `> 0` test — either
way the result is `0x80`, and for `i ≥ 1` the two agree exactly, so the
`ℕ` model below is observably identical to the C code. -/
def uByte (buf : List ℕ) (i : ℕ) : ℕ :=
  let j : ℕ := if i % 4 = 0 then i + 1 else i - 1
  if 0 < j ∧ j < buf.length then buf.getD j 0 else 0x80

/-- The V byte fetched for the luma sample at offset `i` in
`convertToRGB`: offset `i+1` when `i % 4 == 2`, else `i-1`, with the
same bounds test (and the same `size_t` wraparound remark) as `uByte`. -/
def vByte (buf : List ℕ) (i : ℕ) : ℕ :=
  let j : ℕ := if i % 4 = 2 then i + 1 else i - 1
  if 0 < j ∧ j < buf.length then buf.getD j 0 else 0x80

/-- Studio-range to full-range rescale of the luma byte:
`Y = (255.0/219.0) * (y - 0x10)`. -/
def Yval (y : ℕ) : ℚ := (255 / 219 : ℚ) * ((y : ℚ) - 0x10)

/-- Studio-range to full-range rescale of the U byte:
`Pb = (255.0/224.0) * (u - 0x80)`. -/
def Pbval (u : ℕ) : ℚ := (255 / 224 : ℚ) * ((u : ℚ) - 0x80)

/-- Studio-range to full-range rescale of the V byte:
`Pr = (255.0/224.0) * (v - 0x80)`. -/
def Prval (v : ℕ) : ℚ := (255 / 224 : ℚ) * ((v : ℚ) - 0x80)

/-- `R = 1.0 * Y + 0.000 * Pb + 1.402 * Pr` as in webcam.c. -/
def Rval (y u v : ℕ) : ℚ :=
  1 * Yval y + 0 * Pbval u + (1402 / 1000 : ℚ) * Prval v

/-- `G = 1.0 * Y + 0.344 * Pb - 0.714 * Pr` as in webcam.c.  Note the
sign of the `Pb` term: the source really adds `0.344 * Pb`. -/
def Gval (y u v : ℕ) : ℚ :=
  1 * Yval y + (344 / 1000 : ℚ) * Pbval u - (714 / 1000 : ℚ) * Prval v

/-- `B = 1.0 * Y + 1.772 * Pb + 0.000 * Pr` as in webcam.c. -/
def Bval (y u v : ℕ) : ℚ :=
  1 * Yval y + (1772 / 1000 : ℚ) * Pbval u + 0 * Prval v

/-- The three output bytes written for the luma sample at offset `i`:
`clamp R`, `clamp G`, `clamp B`. -/
def pixelRGB (buf : List ℕ) (i : ℕ) : List ℕ :=
  let y := buf.getD i 0
  let u := uByte buf i
  let v := vByte buf i
  [clamp (Rval y u v), clamp (Gval y u v), clamp (Bval y u v)]

/-- The conversion loop of `convertToRGB`, unrolled by pixel: `n` is the
number of remaining loop iterations and `p` the current pixel index (the
loop variable is `i = 2 * p`). -/
def convertPixelsAux (buf : List ℕ) : ℕ → ℕ → List ℕ
  | 0, _ => []
  | n + 1, p => pixelRGB buf (2 * p) ++ convertPixelsAux buf n (p + 1)

/-- The byte sequence written to `w->frame.start` by `convertToRGB`: the
loop runs over `i = 0, 2, 4, ...` while `i < buf.length`, which is
`(buf.length + 1) / 2` iterations. -/
def convertToRGB (buf : List ℕ) : List ℕ :=
  convertPixelsAux buf ((buf.length + 1) / 2) 0

theorem clamp_le_255 (x : ℚ) : clamp x ≤ 255 := by
  unfold clamp
  set r := truncToInt x with hr
  by_cases h0 : r < 0
  · simp [h0]
  · by_cases h1 : 255 < r
    · simp [h0, h1]
    · simp only [h0, h1, if_false]
      omega

theorem length_convertPixelsAux (buf : List ℕ) (n p : ℕ) :
    (convertPixelsAux buf n p).length = 3 * n := by
  induction n generalizing p with
  | zero => rfl
  | succ n ih =>
    simp only [convertPixelsAux, List.length_append, ih, pixelRGB,
      List.length_cons, List.length_nil]
    omega

theorem mem_convertPixelsAux (buf : List ℕ) (n p : ℕ) (b : ℕ)
    (hb : b ∈ convertPixelsAux buf n p) :
    ∃ q, b ∈ pixelRGB buf (2 * q) := by
  induction n generalizing p with
  | zero => simp [convertPixelsAux] at hb
  | succ n ih =>
    simp only [convertPixelsAux, List.mem_append] at hb
    rcases hb with hb | hb
    · exact ⟨p, hb⟩
    · exact ih (p + 1) hb

theorem le_255_of_mem_pixelRGB (buf : List ℕ) (i b : ℕ)
    (hb : b ∈ pixelRGB buf i) : b ≤ 255 := by
  simp only [pixelRGB, List.mem_cons, List.not_mem_nil, or_false] at hb
  rcases hb with h | h | h <;> (subst h; exact clamp_le_255 _)

/-- Modelled from the spec: the G channel with the standard
luma/chroma-to-RGB matrix, `G = Y - 0.344 * Pb - 0.714 * Pr` (the Pb
coefficient is subtracted).  Stated only to be compared with the source
function `Gval`, which adds `0.344 * Pb`. -/
def specGval (y u v : ℕ) : ℚ :=
  1 * Yval y - (344 / 1000 : ℚ) * Pbval u - (714 / 1000 : ℚ) * Prval v

theorem Pbval_neutral : Pbval 0x80 = 0 := by norm_num [Pbval]

theorem Prval_neutral : Prval 0x80 = 0 := by norm_num [Prval]

theorem Rval_neutral (y : ℕ) : Rval y 0x80 0x80 = Yval y := by
  rw [Rval, Pbval_neutral, Prval_neutral]; ring

theorem Gval_neutral (y : ℕ) : Gval y 0x80 0x80 = Yval y := by
  rw [Gval, Pbval_neutral, Prval_neutral]; ring

theorem Bval_neutral (y : ℕ) : Bval y 0x80 0x80 = Yval y := by
  rw [Bval, Pbval_neutral, Prval_neutral]; ring

/-- Claim C1 (code bug).  On the 4-byte input `[0x10, 0xFF, 0x10, 0x80]`
the code stores `49` as the G byte of the first pixel, because the
source computes `G = Y + 0.344 * Pb - 0.714 * Pr` with a plus sign on
the `Pb` term; the claimed formula `G = Y - 0.344 * Pb - 0.714 * Pr`
(the standard matrix, `specGval`) clamps to `0` there.  The R and B
coefficients and the claimed `1.402` Pr term do match the code. -/
theorem convertToRGB_G_sign_failing_input :
    convertToRGB [16, 255, 16, 128] = [0, 49, 255, 0, 49, 255] ∧
    Gval 16 255 128 = (278511 / 5600 : ℚ) ∧
    specGval 16 255 128 = -(278511 / 5600 : ℚ) ∧
    clamp (specGval 16 255 128) = 0 ∧
    (49 : ℕ) ≠ 0 := by
  refine ⟨?_, ?_, ?_, ?_, by decide⟩
  · simp only [convertToRGB, convertPixelsAux, pixelRGB, uByte, vByte, clamp, truncToInt,
      Rval, Gval, Bval, Yval, Pbval, Prval, List.length_cons, List.length_nil]
    norm_num [List.getD]
    decide
  · norm_num [Gval, Yval, Pbval, Prval]
  · norm_num [specGval, Yval, Pbval, Prval]
  · simp only [clamp, truncToInt, specGval, Yval, Pbval, Prval]
    norm_num

/-- Claim C3: for every packed-YUV buffer of even length at least 4,
the conversion writes exactly `length / 2 * 3` bytes and every output
byte lies in the byte range `[0, 255]` (the output type is `ℕ`, so the
lower bound is implicit, and `clamp` enforces the upper bound). -/
theorem convertToRGB_length_and_range (buf : List ℕ)
    (hev : buf.length % 2 = 0) (_h4 : 4 ≤ buf.length) :
    (convertToRGB buf).length = buf.length / 2 * 3 ∧
    ∀ b ∈ convertToRGB buf, b ≤ 255 := by
  constructor
  · rw [convertToRGB, length_convertPixelsAux]
    omega
  · intro b hb
    obtain ⟨q, hq⟩ := mem_convertPixelsAux buf _ _ b hb
    exact le_255_of_mem_pixelRGB buf (2 * q) b hq

/-- Witness for C3 at the concrete 4-byte buffer `[16, 128, 16, 128]`. -/
theorem convertToRGB_length_and_range_witness :
    (convertToRGB [16, 128, 16, 128]).length = [16, 128, 16, 128].length / 2 * 3 ∧
    ∀ b ∈ convertToRGB [16, 128, 16, 128], b ≤ 255 :=
  convertToRGB_length_and_range [16, 128, 16, 128] (by decide) (by decide)

/-- Claim C4, counterexample.  Converting the 2-byte buffer
`[0x10, 0xFF]` does NOT use the neutral chroma `0x80` for the U
component: offset `i + 1 = 1` is inside the buffer, so the U byte is
read from the buffer (here `0xFF`), and the resulting pixel
`[0, 49, 255]` is not gray even though the luma `0x10` rescales to 0. -/
theorem convertToRGB_two_byte_counterexample :
    uByte [16, 255] 0 = 255 ∧ (255 : ℕ) ≠ 0x80 ∧
    convertToRGB [16, 255] = [0, 49, 255] ∧
    ¬((0 : ℕ) = 49 ∧ (49 : ℕ) = 255) := by
  refine ⟨by decide, by decide, ?_, by decide⟩
  simp only [convertToRGB, convertPixelsAux, pixelRGB, uByte, vByte, clamp, truncToInt,
    Rval, Gval, Bval, Yval, Pbval, Prval, List.length_cons, List.length_nil]
  norm_num [List.getD]
  decide

/-- Claim C4 as amended: converting a 2-byte buffer `[y, c]` reads the U
component from the chroma byte at offset 1 (which is in range) and
substitutes the neutral value `0x80` only for the V component (whose
neighbor offset `i - 1` is out of range at `i = 0`); the single output
pixel is gray (`R = G = B`) when that chroma byte is itself `0x80`. -/
theorem convertToRGB_two_byte_amended (y c : ℕ) :
    uByte [y, c] 0 = c ∧ vByte [y, c] 0 = 0x80 ∧
    (c = 0x80 →
      convertToRGB [y, c] = [clamp (Yval y), clamp (Yval y), clamp (Yval y)]) := by
  refine ⟨?_, ?_, ?_⟩
  · simp [uByte, List.getD]
  · simp [vByte]
  · intro hc
    subst hc
    have hu : uByte [y, 0x80] 0 = 0x80 := by simp [uByte, List.getD]
    have hv : vByte [y, 0x80] 0 = 0x80 := by simp [vByte]
    show convertPixelsAux [y, 0x80] (([y, 0x80].length + 1) / 2) 0 = _
    simp only [List.length_cons, List.length_nil]
    show pixelRGB [y, 0x80] 0 ++ [] = _
    simp only [pixelRGB, hu, hv, List.getD_cons_zero, List.append_nil,
      Rval_neutral, Gval_neutral, Bval_neutral]

/-- Witness for the amended C4 at `y = 0x10`, `c = 0x80`. -/
theorem convertToRGB_two_byte_amended_witness :
    uByte [16, 128] 0 = 128 ∧
    convertToRGB [16, 128] = [clamp (Yval 16), clamp (Yval 16), clamp (Yval 16)] :=
  ⟨(convertToRGB_two_byte_amended 16 128).1,
   (convertToRGB_two_byte_amended 16 128).2.2 rfl⟩

/-- Claim C5: for every even luma offset `i`, the U sample offset is
`i+1` when `i % 4 == 0` and `i-1` otherwise, the V sample offset is
`i+1` when `i % 4 == 2` and `i-1` otherwise, and a computed neighbor
offset outside `[0, length)` is replaced by the neutral chroma `0x80`.
The offsets are stated over `ℤ` with the half-open interval test of the
claim; for even `i` the computed offset is odd, hence never `0`, so the
code's strict `0 < offset` test agrees with the claim's `0 ≤ offset`. -/
theorem chroma_neighbor_rule (buf : List ℕ) (i : ℕ) (hi : i % 2 = 0) :
    (uByte buf i =
      if 0 ≤ (if i % 4 = 0 then (i : ℤ) + 1 else (i : ℤ) - 1) ∧
          (if i % 4 = 0 then (i : ℤ) + 1 else (i : ℤ) - 1) < (buf.length : ℤ) then
        buf.getD (if i % 4 = 0 then (i : ℤ) + 1 else (i : ℤ) - 1).toNat 0
      else 0x80) ∧
    (vByte buf i =
      if 0 ≤ (if i % 4 = 2 then (i : ℤ) + 1 else (i : ℤ) - 1) ∧
          (if i % 4 = 2 then (i : ℤ) + 1 else (i : ℤ) - 1) < (buf.length : ℤ) then
        buf.getD (if i % 4 = 2 then (i : ℤ) + 1 else (i : ℤ) - 1).toNat 0
      else 0x80) := by
  have h4 : i % 4 = 0 ∨ i % 4 = 2 := by omega
  constructor
  · rcases Nat.eq_zero_or_pos i with h0 | hpos
    · subst h0
      simp [uByte, List.getD]
    · by_cases hc : i % 4 = 0
      · have he : (if i % 4 = 0 then (i : ℤ) + 1 else (i : ℤ) - 1) = ((i + 1 : ℕ) : ℤ) := by
          rw [if_pos hc]; push_cast; ring
        rw [uByte, he]
        simp only [if_pos hc, Int.toNat_natCast]
        have : (0 : ℤ) ≤ ((i + 1 : ℕ) : ℤ) := by positivity
        have hlt : (((i + 1 : ℕ) : ℤ) < (buf.length : ℤ)) ↔ i + 1 < buf.length := by
          exact_mod_cast Iff.rfl
        by_cases hb : i + 1 < buf.length
        · rw [if_pos ⟨by omega, hb⟩, if_pos ⟨this, hlt.mpr hb⟩]
        · rw [if_neg (by omega), if_neg (by rw [not_and_or]; right; omega)]
      · have hge : 2 ≤ i := by omega
        have he : (if i % 4 = 0 then (i : ℤ) + 1 else (i : ℤ) - 1) = ((i - 1 : ℕ) : ℤ) := by
          rw [if_neg hc]; omega
        rw [uByte, he]
        simp only [if_neg hc, Int.toNat_natCast]
        by_cases hb : i - 1 < buf.length
        · rw [if_pos ⟨by omega, hb⟩, if_pos ⟨by positivity, by exact_mod_cast hb⟩]
        · rw [if_neg (by omega), if_neg (by rw [not_and_or]; right; omega)]
  · by_cases hc : i % 4 = 2
    · have he : (if i % 4 = 2 then (i : ℤ) + 1 else (i : ℤ) - 1) = ((i + 1 : ℕ) : ℤ) := by
        rw [if_pos hc]; push_cast; ring
      rw [vByte, he]
      simp only [if_pos hc, Int.toNat_natCast]
      by_cases hb : i + 1 < buf.length
      · rw [if_pos ⟨by omega, hb⟩, if_pos ⟨by positivity, by exact_mod_cast hb⟩]
      · rw [if_neg (by omega), if_neg (by rw [not_and_or]; right; omega)]
    · rcases Nat.eq_zero_or_pos i with h0 | hpos
      · subst h0
        simp [vByte, List.getD]
      · have hge : 4 ≤ i := by omega
        have he : (if i % 4 = 2 then (i : ℤ) + 1 else (i : ℤ) - 1) = ((i - 1 : ℕ) : ℤ) := by
          rw [if_neg hc]; omega
        rw [vByte, he]
        simp only [if_neg hc, Int.toNat_natCast]
        by_cases hb : i - 1 < buf.length
        · rw [if_pos ⟨by omega, hb⟩, if_pos ⟨by positivity, by exact_mod_cast hb⟩]
        · rw [if_neg (by omega), if_neg (by rw [not_and_or]; right; omega)]

/-- Witness for C5 at the buffer `[1, 2, 3, 4]` and offset `i = 2`. -/
theorem chroma_neighbor_rule_witness :
    (uByte [1, 2, 3, 4] 2 =
      if 0 ≤ (if 2 % 4 = 0 then (2 : ℤ) + 1 else (2 : ℤ) - 1) ∧
          (if 2 % 4 = 0 then (2 : ℤ) + 1 else (2 : ℤ) - 1) < ([1, 2, 3, 4].length : ℤ) then
        [1, 2, 3, 4].getD (if 2 % 4 = 0 then (2 : ℤ) + 1 else (2 : ℤ) - 1).toNat 0
      else 0x80) ∧
    (vByte [1, 2, 3, 4] 2 =
      if 0 ≤ (if 2 % 4 = 2 then (2 : ℤ) + 1 else (2 : ℤ) - 1) ∧
          (if 2 % 4 = 2 then (2 : ℤ) + 1 else (2 : ℤ) - 1) < ([1, 2, 3, 4].length : ℤ) then
        [1, 2, 3, 4].getD (if 2 % 4 = 2 then (2 : ℤ) + 1 else (2 : ℤ) - 1).toNat 0
      else 0x80) :=
  chroma_neighbor_rule [1, 2, 3, 4] 2 (by decide)

/-! ### The histogram equalizer (`equalize` in webcam.c) -/

/-- The luma samples of a buffer: the bytes at even offsets
`0, 2, 4, ...` visited by the loops `for (i = 0; i < length; i += 2)`,
which run `(length + 1) / 2` times. -/
def lumaBytes (buf : List ℕ) : List ℕ :=
  (List.range ((buf.length + 1) / 2)).map (fun p => buf.getD (2 * p) 0)

/-- The 256-bucket histogram of `equalize`: `histogram[v]` counts the
luma bytes equal to `v`. -/
def histogram (buf : List ℕ) (v : ℕ) : ℕ :=
  (lumaBytes buf).count v

/-- The cumulative distribution of `equalize`:
`cdf[i] = (i == 0) ? histogram[0] : cdf[i-1] + histogram[i]`. -/
def cdf (buf : List ℕ) : ℕ → ℕ
  | 0 => histogram buf 0
  | v + 1 => cdf buf v + histogram buf (v + 1)

/-- `cdf_min` of `equalize`: the loop keeps the first `cdf[i] > 0` it
meets while scanning `i = 0, ..., 255` (`depth` is `1 << 8`), and `0`
if every entry is zero. -/
def cdfMin (buf : List ℕ) : ℕ :=
  match (List.range 256).find? (fun i => 0 < cdf buf i) with
  | some i => cdf buf i
  | none => 0

/-- The value stored over a luma byte `value` by the equalization loop:
`1.0 * (cdf[value] - cdf_min) / (buf->length / 2 - cdf_min) * (depth - 1)`,
computed in `double` (exact rational here) and truncated by the store
into the byte.  The two subtractions are `size_t` subtractions that are
only reached with minuend at least the subtrahend in even-length runs,
modelled by truncated `ℕ` subtraction. -/
def remap (buf : List ℕ) (v : ℕ) : ℕ :=
  (truncToInt ((((cdf buf v - cdfMin buf : ℕ) : ℚ) /
    ((buf.length / 2 - cdfMin buf : ℕ) : ℚ)) * 255)).toNat

/-- The equalization loop, byte by byte: `k` is the offset of the head
of `l` in the original buffer; even offsets are overwritten with
`remap`, odd offsets are untouched. -/
def equalizeGo (buf : List ℕ) : ℕ → List ℕ → List ℕ
  | _, [] => []
  | k, b :: rest => (if k % 2 = 0 then remap buf b else b) :: equalizeGo buf (k + 1) rest

/-- `equalize` from webcam.c as a function on buffers: builds the
histogram and cdf of the buffer, then rewrites every even-offset byte
through `remap`. -/
def equalize (buf : List ℕ) : List ℕ :=
  equalizeGo buf 0 buf

theorem length_equalizeGo (buf : List ℕ) (l : List ℕ) (k : ℕ) :
    (equalizeGo buf k l).length = l.length := by
  induction l generalizing k with
  | nil => rfl
  | cons b rest ih => simp [equalizeGo, ih]

theorem getD_equalizeGo_odd (buf : List ℕ) (l : List ℕ) (k i : ℕ)
    (h : (k + i) % 2 = 1) :
    (equalizeGo buf k l).getD i 0 = l.getD i 0 := by
  induction l generalizing k i with
  | nil => rfl
  | cons b rest ih =>
    cases i with
    | zero =>
      have hk : ¬ k % 2 = 0 := by omega
      simp [equalizeGo, hk]
    | succ i =>
      have h2 : (k + 1 + i) % 2 = 1 := by omega
      simp only [equalizeGo, List.getD_cons_succ]
      exact ih (k + 1) i h2

theorem getD_equalizeGo_even (buf : List ℕ) (l : List ℕ) (k i : ℕ)
    (h : (k + i) % 2 = 0) (hi : i < l.length) :
    (equalizeGo buf k l).getD i 0 = remap buf (l.getD i 0) := by
  induction l generalizing k i with
  | nil => simp at hi
  | cons b rest ih =>
    cases i with
    | zero =>
      have hk : k % 2 = 0 := by omega
      simp [equalizeGo, hk]
    | succ i =>
      have h2 : (k + 1 + i) % 2 = 0 := by omega
      simp only [equalizeGo, List.getD_cons_succ]
      exact ih (k + 1) i h2 (by simpa using hi)

/-- The truncated rational of `remap` is exactly natural division:
`remap buf v = (cdf[v] - cdf_min) * 255 / (length / 2 - cdf_min)`. -/
theorem remap_eq_div (buf : List ℕ) (v : ℕ) :
    remap buf v =
      (cdf buf v - cdfMin buf) * 255 / (buf.length / 2 - cdfMin buf) := by
  set n := cdf buf v - cdfMin buf with hn
  set d := buf.length / 2 - cdfMin buf with hd
  have hx : ((n : ℚ) / (d : ℚ)) * 255 = ((n * 255 : ℕ) : ℚ) / ((d : ℕ) : ℚ) := by
    push_cast
    ring
  have h0 : (0 : ℚ) ≤ ((n * 255 : ℕ) : ℚ) / ((d : ℕ) : ℚ) := by positivity
  rw [remap, hx, truncToInt, if_pos h0, Int.floor_toNat, Nat.floor_div_eq_div]

theorem cdf_zero (buf : List ℕ) : cdf buf 0 = histogram buf 0 := rfl

theorem cdf_succ (buf : List ℕ) (v : ℕ) :
    cdf buf (v + 1) = cdf buf v + histogram buf (v + 1) := rfl

theorem cdf_mono (buf : List ℕ) {a b : ℕ} (h : a ≤ b) :
    cdf buf a ≤ cdf buf b := by
  induction b with
  | zero =>
    have : a = 0 := by omega
    subst this
    exact le_refl _
  | succ b ih =>
    rcases Nat.eq_or_lt_of_le h with rfl | hlt
    · exact le_refl _
    · exact le_trans (ih (by omega)) (by rw [cdf_succ]; exact Nat.le_add_right _ _)

theorem histogram_le_cdf (buf : List ℕ) (v : ℕ) :
    histogram buf v ≤ cdf buf v := by
  cases v with
  | zero => exact le_refl _
  | succ v => rw [cdf_succ]; exact Nat.le_add_left _ _

theorem cdf_pos_of_mem (buf : List ℕ) {v : ℕ} (hv : v ∈ lumaBytes buf) :
    0 < cdf buf v :=
  lt_of_lt_of_le (List.count_pos_iff.mpr hv) (histogram_le_cdf buf v)

theorem exists_mem_le_of_cdf_pos (buf : List ℕ) (v : ℕ) (hv : 0 < cdf buf v) :
    ∃ j, j ≤ v ∧ j ∈ lumaBytes buf := by
  induction v with
  | zero =>
    rw [cdf_zero] at hv
    exact ⟨0, le_refl 0, List.count_pos_iff.mp hv⟩
  | succ v ih =>
    rw [cdf_succ] at hv
    by_cases hh : 0 < histogram buf (v + 1)
    · exact ⟨v + 1, le_refl _, List.count_pos_iff.mp hh⟩
    · obtain ⟨j, hj, hmem⟩ := ih (by omega)
      exact ⟨j, by omega, hmem⟩

/-- The `cdf_min` loop keeps `cdf[v0]` for the least `v0` with a
nonzero cumulative count. -/
theorem cdfMin_spec (buf : List ℕ) (v : ℕ) (hv : 0 < cdf buf v) (h256 : v < 256) :
    ∃ v0, v0 ≤ v ∧ cdfMin buf = cdf buf v0 ∧ 0 < cdf buf v0 ∧
      ∀ j, j < v0 → cdf buf j = 0 := by
  have hex : ∃ j, 0 < cdf buf j := ⟨v, hv⟩
  set v0 := Nat.find hex with hv0
  have hpos : 0 < cdf buf v0 := Nat.find_spec hex
  have hle : v0 ≤ v := Nat.find_min' hex hv
  have hzero : ∀ j, j < v0 → cdf buf j = 0 := by
    intro j hj
    have := Nat.find_min hex hj
    omega
  refine ⟨v0, hle, ?_, hpos, hzero⟩
  have hfind : (List.range 256).find? (fun i => 0 < cdf buf i) = some v0 := by
    have hsplit : (256 : ℕ) = v0 + (256 - v0) := by omega
    rw [hsplit, List.range_add, List.find?_append]
    have h1 : (List.range v0).find? (fun i => 0 < cdf buf i) = none := by
      rw [List.find?_eq_none]
      intro x hx
      rw [List.mem_range] at hx
      simp [hzero x hx]
    rw [h1]
    have h2 : (256 - v0 : ℕ) = (255 - v0) + 1 := by omega
    rw [h2, List.range_succ_eq_map]
    simp only [List.map_cons]
    rw [List.find?_cons_of_pos]
    · simp
    · simpa using hpos
  rw [cdfMin, hfind]

theorem cdfMin_le_cdf (buf : List ℕ) {v : ℕ} (hv : 0 < cdf buf v)
    (h256 : v < 256) : cdfMin buf ≤ cdf buf v := by
  obtain ⟨v0, hle, heq, -, -⟩ := cdfMin_spec buf v hv h256
  rw [heq]
  exact cdf_mono buf hle

theorem sum_count_eq_length (l : List ℕ) (N : ℕ) (h : ∀ x ∈ l, x < N) :
    ∑ j in Finset.range N, l.count j = l.length := by
  induction l with
  | nil => simp
  | cons x t ih =>
    have hx : x ∈ Finset.range N := Finset.mem_range.mpr (h x (List.mem_cons_self x t))
    have ht : ∀ y ∈ t, y < N := fun y hy => h y (List.mem_cons_of_mem _ hy)
    simp only [List.count_cons, beq_iff_eq, List.length_cons]
    rw [Finset.sum_add_distrib, ih ht, Finset.sum_ite_eq, if_pos hx]

theorem cdf_eq_sum (buf : List ℕ) (v : ℕ) :
    cdf buf v = ∑ j in Finset.range (v + 1), histogram buf j := by
  induction v with
  | zero => simp [cdf_zero]
  | succ v ih =>
    rw [cdf_succ, ih]
    exact (Finset.sum_range_succ _ (v + 1)).symm

theorem cdf_top (buf : List ℕ) (h : ∀ x ∈ lumaBytes buf, x < 256) :
    cdf buf 255 = (lumaBytes buf).length := by
  rw [cdf_eq_sum]
  exact sum_count_eq_length (lumaBytes buf) 256 h

theorem cdf_add_of_max (buf : List ℕ) (b : ℕ)
    (hmax : ∀ k, b < k → histogram buf k = 0) (m : ℕ) :
    cdf buf (b + m) = cdf buf b := by
  induction m with
  | zero => rfl
  | succ m ih =>
    show cdf buf (b + m + 1) = cdf buf b
    rw [cdf_succ, ih, hmax (b + m + 1) (by omega), Nat.add_zero]

theorem mem_of_mem_lumaBytes (buf : List ℕ) {x : ℕ} (hx : x ∈ lumaBytes buf) :
    x ∈ buf := by
  rw [lumaBytes, List.mem_map] at hx
  obtain ⟨p, hp, rfl⟩ := hx
  rw [List.mem_range] at hp
  have h2 : 2 * p < buf.length := by omega
  rw [List.getD_eq_getElem buf 0 h2]
  exact List.getElem_mem h2

theorem length_lumaBytes (buf : List ℕ) :
    (lumaBytes buf).length = (buf.length + 1) / 2 := by
  rw [lumaBytes, List.length_map, List.length_range]

/-- Claim C7: `equalize` preserves the buffer length and leaves every
odd-offset (chroma) byte unchanged. -/
theorem equalize_mutates_only_luma (buf : List ℕ) :
    (equalize buf).length = buf.length ∧
    ∀ i, i % 2 = 1 → (equalize buf).getD i 0 = buf.getD i 0 :=
  ⟨length_equalizeGo buf buf 0,
   fun i hi => getD_equalizeGo_odd buf buf 0 i (by omega)⟩

/-- Witness for C7 at the buffer `[10, 20]` and odd offset `1`. -/
theorem equalize_mutates_only_luma_witness :
    (equalize [10, 20]).length = [10, 20].length ∧
    (equalize [10, 20]).getD 1 0 = [10, 20].getD 1 0 :=
  ⟨(equalize_mutates_only_luma [10, 20]).1,
   (equalize_mutates_only_luma [10, 20]).2 1 rfl⟩

/-- Claim C2 (code bug).  On the buffer `[100, 128, 100, 128]`, whose
luma bytes are both `100`, the cumulative count at the single occurring
value equals the total `length / 2 = 2`, so `cdf_min = 2` and the
divisor `buf->length / 2 - cdf_min` of the equalization loop is `0`:
the code divides by zero (in C a NaN is stored into the byte), with no
special case guarding it. -/
theorem equalize_constant_luma_div_zero :
    cdf [100, 128, 100, 128] 100 = 2 ∧
    cdfMin [100, 128, 100, 128] = 2 ∧
    [100, 128, 100, 128].length / 2 - cdfMin [100, 128, 100, 128] = 0 ∧
    (([100, 128, 100, 128].length / 2 - cdfMin [100, 128, 100, 128] : ℕ) : ℚ) = 0 := by
  refine ⟨by decide, by decide, by decide, ?_⟩
  rw [show ([100, 128, 100, 128].length / 2 - cdfMin [100, 128, 100, 128] : ℕ) = 0
    from by decide]
  norm_num

/-- Claim C6, counterexample.  On the buffer with luma bytes
`[0, 1, 1, 2, 2, 2, 2, 2]` the code maps the luma value `1` to
`⌊(2 / 7) * 255⌋ = 72` — the store truncates the double — while the
claimed `round((2 / 7) * 255)` is `73`. -/
theorem equalize_truncates_not_rounds :
    (equalize [0, 0, 1, 0, 1, 0, 2, 0, 2, 0, 2, 0, 2, 0, 2, 0]).getD 2 0 = 72 ∧
    round (((cdf [0, 0, 1, 0, 1, 0, 2, 0, 2, 0, 2, 0, 2, 0, 2, 0] 1 -
        cdfMin [0, 0, 1, 0, 1, 0, 2, 0, 2, 0, 2, 0, 2, 0, 2, 0] : ℕ) : ℚ) /
      (((lumaBytes [0, 0, 1, 0, 1, 0, 2, 0, 2, 0, 2, 0, 2, 0, 2, 0]).length -
        cdfMin [0, 0, 1, 0, 1, 0, 2, 0, 2, 0, 2, 0, 2, 0, 2, 0] : ℕ) : ℚ) * 255) = 73 ∧
    (72 : ℕ) ≠ 73 := by
  refine ⟨?_, ?_, by decide⟩
  · have h := getD_equalizeGo_even [0, 0, 1, 0, 1, 0, 2, 0, 2, 0, 2, 0, 2, 0, 2, 0]
      [0, 0, 1, 0, 1, 0, 2, 0, 2, 0, 2, 0, 2, 0, 2, 0] 0 2 (by decide) (by decide)
    rw [equalize, h, remap_eq_div]
    decide
  · rw [show (cdf [0, 0, 1, 0, 1, 0, 2, 0, 2, 0, 2, 0, 2, 0, 2, 0] 1 -
        cdfMin [0, 0, 1, 0, 1, 0, 2, 0, 2, 0, 2, 0, 2, 0, 2, 0] : ℕ) = 2 from by decide]
    rw [show ((lumaBytes [0, 0, 1, 0, 1, 0, 2, 0, 2, 0, 2, 0, 2, 0, 2, 0]).length -
        cdfMin [0, 0, 1, 0, 1, 0, 2, 0, 2, 0, 2, 0, 2, 0, 2, 0] : ℕ) = 7 from by decide]
    rw [round_eq]
    norm_num

/-- Claim C6 as amended: for an even-length buffer of bytes (the packed
format keeps lengths even) with at least two distinct occurring luma
values, the equalizer remaps the luma byte `v` at each even offset to
`(cdf[v] - cdf_min) * 255 / (total_luma_samples - cdf_min)` with the
scaled value truncated (floor, expressed by natural division), not
rounded to nearest. -/
theorem equalize_remap_formula (buf : List ℕ)
    (hev : buf.length % 2 = 0) (_hbytes : ∀ x ∈ buf, x < 256)
    (_hdist : ∃ a ∈ lumaBytes buf, ∃ b ∈ lumaBytes buf, a ≠ b)
    (i : ℕ) (hi : i < buf.length) (hpar : i % 2 = 0) :
    (equalize buf).getD i 0 =
      (cdf buf (buf.getD i 0) - cdfMin buf) * 255 /
        ((lumaBytes buf).length - cdfMin buf) := by
  have hlen : (lumaBytes buf).length = buf.length / 2 := by
    rw [length_lumaBytes]
    omega
  have h := getD_equalizeGo_even buf buf 0 i (by omega) hi
  rw [equalize, h, remap_eq_div, hlen]

/-- Witness for the amended C6: on the buffer with luma bytes
`[0, 1, 1, 2, 2, 2, 2, 2]`, the luma byte `1` at offset 2 is remapped
to `(3 - 1) * 255 / (8 - 1) = 72`. -/
theorem equalize_remap_formula_witness :
    (equalize [0, 0, 1, 0, 1, 0, 2, 0, 2, 0, 2, 0, 2, 0, 2, 0]).getD 2 0 =
      (cdf [0, 0, 1, 0, 1, 0, 2, 0, 2, 0, 2, 0, 2, 0, 2, 0]
          ([0, 0, 1, 0, 1, 0, 2, 0, 2, 0, 2, 0, 2, 0, 2, 0].getD 2 0) -
        cdfMin [0, 0, 1, 0, 1, 0, 2, 0, 2, 0, 2, 0, 2, 0, 2, 0]) * 255 /
        ((lumaBytes [0, 0, 1, 0, 1, 0, 2, 0, 2, 0, 2, 0, 2, 0, 2, 0]).length -
          cdfMin [0, 0, 1, 0, 1, 0, 2, 0, 2, 0, 2, 0, 2, 0, 2, 0]) :=
  equalize_remap_formula [0, 0, 1, 0, 1, 0, 2, 0, 2, 0, 2, 0, 2, 0, 2, 0]
    (by decide) (by decide) ⟨0, by decide, 1, by decide, by decide⟩ 2 (by decide) (by decide)

/-- Claim C9: the equalizer's luma remapping is monotone non-decreasing
on occurring luma values, and when at least two distinct luma values
occur, the lowest occurring value is remapped to 0 and the highest to
255.  The buffer is assumed even-length (the packed-format invariant)
with byte-valued entries. -/
theorem equalize_remap_monotone_endpoints (buf : List ℕ)
    (hev : buf.length % 2 = 0) (hbytes : ∀ x ∈ buf, x < 256) :
    (∀ a ∈ lumaBytes buf, ∀ b ∈ lumaBytes buf, a ≤ b → remap buf a ≤ remap buf b) ∧
    ((∃ a ∈ lumaBytes buf, ∃ b ∈ lumaBytes buf, a ≠ b) →
      (∀ a ∈ lumaBytes buf, (∀ x ∈ lumaBytes buf, a ≤ x) → remap buf a = 0) ∧
      (∀ b ∈ lumaBytes buf, (∀ x ∈ lumaBytes buf, x ≤ b) → remap buf b = 255)) := by
  have hlb : ∀ x ∈ lumaBytes buf, x < 256 := fun x hx =>
    hbytes x (mem_of_mem_lumaBytes buf hx)
  have hlen : (lumaBytes buf).length = buf.length / 2 := by
    rw [length_lumaBytes]; omega
  constructor
  · intro a ha b hb hab
    rw [remap_eq_div, remap_eq_div]
    exact Nat.div_le_div_right
      (Nat.mul_le_mul_right _ (Nat.sub_le_sub_right (cdf_mono buf hab) _))
  · rintro ⟨x, hx, y, hy, hxy⟩
    -- two distinct occurring values give `cdfMin buf < total luma count`,
    -- hence a positive divisor
    have hdenom : cdfMin buf < (lumaBytes buf).length := by
      have hpair : ∃ u w, u ∈ lumaBytes buf ∧ w ∈ lumaBytes buf ∧ u < w := by
        rcases Nat.lt_or_ge x y with h | h
        · exact ⟨x, y, hx, hy, h⟩
        · exact ⟨y, x, hy, hx, by omega⟩
      obtain ⟨u, w, hu, hw, huw⟩ := hpair
      have hcu : 0 < cdf buf u := cdf_pos_of_mem buf hu
      have hmin : cdfMin buf ≤ cdf buf u := cdfMin_le_cdf buf hcu (hlb u hu)
      have hw1 : w = (w - 1) + 1 := by omega
      have hcw : cdf buf u + 1 ≤ cdf buf w := by
        rw [hw1, cdf_succ]
        have h1 : cdf buf u ≤ cdf buf (w - 1) := cdf_mono buf (by omega)
        have h2 : 0 < histogram buf w := List.count_pos_iff.mpr hw
        rw [← hw1]
        omega
      have htop : cdf buf w ≤ cdf buf 255 := cdf_mono buf (by
        have := hlb w hw; omega)
      rw [cdf_top buf hlb] at htop
      omega
    constructor
    · intro a ha hmin
      rw [remap_eq_div]
      have hca : 0 < cdf buf a := cdf_pos_of_mem buf ha
      obtain ⟨v0, hle, heq, hv0pos, -⟩ := cdfMin_spec buf a hca (hlb a ha)
      have h1 : cdfMin buf ≤ cdf buf a := by rw [heq]; exact cdf_mono buf hle
      have h2 : cdf buf a ≤ cdfMin buf := by
        obtain ⟨j, hj, hjmem⟩ := exists_mem_le_of_cdf_pos buf v0 hv0pos
        rw [heq]
        exact le_trans (cdf_mono buf (hmin j hjmem)) (cdf_mono buf hj)
      have : cdf buf a - cdfMin buf = 0 := by omega
      rw [this]
      simp
    · intro b hb hmax
      rw [remap_eq_div, hlen.symm]
      have hhz : ∀ k, b < k → histogram buf k = 0 := by
        intro k hk
        rw [histogram, List.count_eq_zero]
        intro hkmem
        have := hmax k hkmem
        omega
      have hb255 : b < 256 := hlb b hb
      have hcb : cdf buf b = (lumaBytes buf).length := by
        have h255 : cdf buf (b + (255 - b)) = cdf buf b := cdf_add_of_max buf b hhz _
        rw [show b + (255 - b) = 255 from by omega] at h255
        rw [← h255, cdf_top buf hlb]
      rw [hcb]
      exact Nat.mul_div_cancel_left 255 (by omega)

/-- Witness for C9 at the buffer `[0, 0, 2, 0]` (luma bytes `[0, 2]`):
the remapping is monotone on `{0, 2}`, `0` maps to `0` and `2` to `255`. -/
theorem equalize_remap_monotone_endpoints_witness :
    remap [0, 0, 2, 0] 0 ≤ remap [0, 0, 2, 0] 2 ∧
    remap [0, 0, 2, 0] 0 = 0 ∧ remap [0, 0, 2, 0] 2 = 255 := by
  have H := equalize_remap_monotone_endpoints [0, 0, 2, 0] (by decide) (by decide)
  have Hd := H.2 ⟨0, by decide, 2, by decide, by decide⟩
  exact ⟨H.1 0 (by decide) 2 (by decide) (by decide),
    Hd.1 0 (by decide) (by decide), Hd.2 2 (by decide) (by decide)⟩

/-! ### Buffer-pool request (`webcam_resize`) and frame allocation -/

/-- Outcomes of the buffer-request step of `webcam_resize`. -/
inductive AllocError where
  | InsufficientBuffers
  | MapFailed
deriving DecidableEq

/-- The buffer-request step of `webcam_resize`: the code asks the driver
for 4 buffers (`req.count = 4`), the driver overwrites `req.count` with
the number it grants; if fewer than 2 are granted the function reports
insufficient buffer memory and returns before the mapping loop, else it
proceeds to query and map each of the `granted` buffers (modelled by
the list of their indices). -/
def requestBuffers (granted : ℕ) : Except AllocError (List ℕ) :=
  if granted < 2 then Except.error AllocError.InsufficientBuffers
  else Except.ok (List.range granted)

/-- Claim C8: when the driver grants fewer than 2 of the 4 requested
buffers (for example only 1), the request fails with
`InsufficientBuffers` and no buffer is mapped (the error result carries
no mapped-buffer list; the mapping loop is never reached). -/
theorem requestBuffers_insufficient (granted : ℕ) (h : granted < 2) :
    requestBuffers granted = Except.error AllocError.InsufficientBuffers ∧
    ∀ mapped : List ℕ, requestBuffers granted ≠ Except.ok mapped := by
  constructor
  · rw [requestBuffers, if_pos h]
  · intro mapped
    rw [requestBuffers, if_pos h]
    intro hcon
    exact Except.noConfusion hcon

/-- Witness for C8 with the driver granting a single buffer. -/
theorem requestBuffers_insufficient_witness :
    requestBuffers 1 = Except.error AllocError.InsufficientBuffers ∧
    ∀ mapped : List ℕ, requestBuffers 1 ≠ Except.ok mapped :=
  requestBuffers_insufficient 1 (by decide)

/-- The frame-allocation step at the top of `convertToRGB`: the output
frame is created only when `w->frame.start == NULL`, with recorded
length `buf.length / 2 * 3`; once the frame exists, neither the pointer
nor the recorded length is ever written again.  The state is the
recorded frame length (`none` before the first conversion). -/
def frameAfterConvert (frame : Option ℕ) (bufLen : ℕ) : Option ℕ :=
  match frame with
  | none => some (bufLen / 2 * 3)
  | some l => some l

/-- The `w->frame.start` offsets written while converting a buffer of
length `bufLen`: `i / 2 * 3`, `i / 2 * 3 + 1`, `i / 2 * 3 + 2` for each
even `i < bufLen`; `n` counts the remaining loop iterations and `p` is
the pixel index `i / 2`. -/
def writeIdxAux : ℕ → ℕ → List ℕ
  | 0, _ => []
  | n + 1, p => 3 * p :: (3 * p + 1) :: (3 * p + 2) :: writeIdxAux n (p + 1)

/-- All frame offsets written by one run of the conversion loop over a
buffer of length `bufLen`. -/
def writeIndices (bufLen : ℕ) : List ℕ :=
  writeIdxAux ((bufLen + 1) / 2) 0

theorem mem_writeIdxAux (n p j : ℕ) :
    j ∈ writeIdxAux n p ↔ 3 * p ≤ j ∧ j < 3 * (p + n) := by
  induction n generalizing p with
  | zero =>
    simp only [writeIdxAux, List.not_mem_nil, false_iff]
    omega
  | succ n ih =>
    simp only [writeIdxAux, List.mem_cons, ih (p + 1)]
    omega

/-- Claim C10: the output frame is allocated only by the first
conversion, with recorded length `L1 / 2 * 3` for the first input
length `L1`; a later conversion leaves the recorded length unchanged,
and all of its writes stay below the recorded length precisely when its
input is no longer than the first input. -/
theorem frame_allocated_once_bounds (L1 L2 : ℕ)
    (h1 : L1 % 2 = 0) (h2 : L2 % 2 = 0) :
    frameAfterConvert none L1 = some (L1 / 2 * 3) ∧
    frameAfterConvert (some (L1 / 2 * 3)) L2 = some (L1 / 2 * 3) ∧
    ((∀ j ∈ writeIndices L2, j < L1 / 2 * 3) ↔ L2 ≤ L1) := by
  refine ⟨rfl, rfl, ?_⟩
  constructor
  · intro hall
    rcases Nat.eq_zero_or_pos L2 with h0 | hpos
    · omega
    · have hmem : 3 * (L2 / 2) - 1 ∈ writeIndices L2 := by
        rw [writeIndices, mem_writeIdxAux]
        omega
      have := hall _ hmem
      omega
  · intro hle j hj
    rw [writeIndices, mem_writeIdxAux] at hj
    omega

/-- Witness for C10 with a first input of length 4 and a later input of
length 2. -/
theorem frame_allocated_once_bounds_witness :
    frameAfterConvert none 4 = some (4 / 2 * 3) ∧
    frameAfterConvert (some (4 / 2 * 3)) 2 = some (4 / 2 * 3) ∧
    ((∀ j ∈ writeIndices 2, j < 4 / 2 * 3) ↔ 2 ≤ 4) :=
  frame_allocated_once_bounds 4 2 (by decide) (by decide)

end Webcam
